import Mathlib

/-!
Verification of the geo-tiled business-discovery pipeline
(`src/app/api/run/route.ts`, `src/lib/db-businesses.ts`, `src/lib/mino-api.ts`,
`src/lib/google-places.ts`).

The embedding is a shallow one over exact rational arithmetic:

* Kilometre/degree conversions and the tiler (`buildTiles`) are translated
  from `route.ts` lines 118-167.  `Math.cos((lat * PI) / 180)` is modelled by
  an explicit function parameter `cosFn : Rat -> Rat` (the cosine of an angle
  given in degrees); theorems constrain it only by the properties of the real
  cosine that they need (positive, bounded by 1, equal to 1 at 0).
* The square root in the tile filter is eliminated by squaring:
  for `step > 0`, `sqrt (x^2+y^2) * step <= R` iff `0 <= R` and
  `(x^2+y^2) * step^2 <= R^2`.
* Timestamps are integer milliseconds; `new Date(s)` applied to a stored
  string is modelled by `Option DateVal` (`none` = SQL null, `.invalid` =
  unparseable string, whose NaN arithmetic makes every comparison false).
* The cache (Supabase `businesses` table) is a function from `place_id`
  to an optional row; `updateBusiness` is a plain UPDATE (a no-op when the
  row is absent) and `upsertBusiness` checks then inserts or updates,
  exactly as in `db-businesses.ts`.
* `resolveHasWebsite` is translated step by step from `route.ts` lines
  724-823; all external calls are read from a `World` of oracles and each
  outbound call or cache write is recorded in an effect trace, so "performs
  no network call" is the absence of the corresponding effect.
* The SSE tile loop of `POST` (lines 1030-1179) is a function from the
  abort schedule and the per-tile adapter results to the list of emitted
  events.  Wall-clock fields (`elapsedMs`, heartbeats) are outside the
  model; no claim mentions them.
* `processWithConcurrency` (lines 825-842) is simulated against a
  completion oracle: at every `Promise.race` suspension the oracle picks
  which in-flight task settles.  The trace of launch/settle events is the
  object the concurrency claims speak about.
-/

/-- Kilometres per degree of latitude: the constant 111.32 of `route.ts`. -/
def kmPerDegree : ℚ := 2783 / 25

/-- `route.ts` line 118: `km / 111.32`. -/
def kmToLatDegrees (km : ℚ) : ℚ := km / kmPerDegree

/-- `route.ts` lines 119-120: `km / (111.32 * Math.cos(atLat * PI / 180))`.
`cosFn` stands for the degree cosine. -/
def kmToLngDegrees (cosFn : ℚ → ℚ) (km atLat : ℚ) : ℚ :=
  km / (kmPerDegree * cosFn atLat)

structure GeoPoint where
  lat : ℚ
  lon : ℚ
deriving Repr, DecidableEq

structure TileBounds where
  west : ℚ
  east : ℚ
  north : ℚ
  south : ℚ
deriving Repr, DecidableEq

structure GeoTile where
  id : String
  bounds : TileBounds
deriving Repr, DecidableEq

/-- The inclusive integer range of a JS `for (let i = a; i <= b; i += 1)` loop;
empty when `a > b`. -/
def intRangeIncl (a b : ℤ) : List ℤ :=
  (List.range (b - a + 1).toNat).map (fun (i : ℕ) => a + (i : ℤ))

/-- The emission filter of `buildTiles` (`route.ts` lines 140-143):
keep `(x, y)` unless `sqrt (x^2+y^2) * step > radius + tileSize/2`.
Squared form, valid because `step > 0` always (`step = max (ts - ov) 1`). -/
def tileKeep (stepKm radiusKm tileSizeKm : ℚ) (x y : ℤ) : Bool :=
  decide (0 ≤ radiusKm + tileSizeKm / 2 ∧
    ((x : ℚ) ^ 2 + (y : ℚ) ^ 2) * stepKm ^ 2 ≤ (radiusKm + tileSizeKm / 2) ^ 2)

/-- The `(y, x)` sweep of `buildTiles`: row-major over
`y = -steps..steps`, `x = -steps..steps`, keeping the offsets that pass
the distance filter, in loop order. -/
def tileOffsets (stepKm radiusKm tileSizeKm : ℚ) (steps : ℤ) : List (ℤ × ℤ) :=
  (intRangeIncl (-steps) steps).flatMap (fun y =>
    (intRangeIncl (-steps) steps).filterMap (fun x =>
      if tileKeep stepKm radiusKm tileSizeKm x y then some (x, y) else none))

/-- One emitted tile of `buildTiles` (`route.ts` lines 145-161): bounding box
centred on the grid offset, with the longitude half-width computed at the
tile centre latitude and the id derived from the emission counter. -/
def mkTile (cosFn : ℚ → ℚ) (center : GeoPoint) (stepKm tileSizeKm : ℚ)
    (idx : ℕ) (xy : ℤ × ℤ) : GeoTile :=
  let latStepDeg := kmToLatDegrees stepKm
  let lonStepDeg := kmToLngDegrees cosFn stepKm center.lat
  let tileCenterLat := center.lat + (xy.2 : ℚ) * latStepDeg
  let tileCenterLon := center.lon + (xy.1 : ℚ) * lonStepDeg
  let halfLat := kmToLatDegrees (tileSizeKm / 2)
  let halfLon := kmToLngDegrees cosFn (tileSizeKm / 2) tileCenterLat
  { id := "tile-" ++ toString idx
    bounds :=
      { west := tileCenterLon - halfLon
        east := tileCenterLon + halfLon
        north := tileCenterLat + halfLat
        south := tileCenterLat - halfLat } }

/-- `buildTiles` of `route.ts` lines 125-167.  The mutable `tileIndex`
counter, incremented exactly once per emitted tile, is the position of the
tile in the emitted list, hence the `enum`. -/
def buildTiles (cosFn : ℚ → ℚ) (center : GeoPoint)
    (radiusKm tileSizeKm overlapKm : ℚ) : List GeoTile :=
  let stepKm := max (tileSizeKm - overlapKm) 1
  let steps : ℤ := ⌈radiusKm / stepKm⌉
  ((tileOffsets stepKm radiusKm tileSizeKm steps).enum).map
    (fun p => mkTile cosFn center stepKm tileSizeKm p.1 p.2)

/-- Membership of a point (in degrees) in a tile bounding box. -/
def inTileBounds (t : GeoTile) (lat lon : ℚ) : Bool :=
  decide (t.bounds.south ≤ lat ∧ lat ≤ t.bounds.north ∧
    t.bounds.west ≤ lon ∧ lon ≤ t.bounds.east)

/-- Result of `new Date(s)` on a stored timestamp string: a millisecond
value, or the NaN date for an unparseable string. -/
inductive DateVal where
  | valid (ms : ℤ)
  | invalid
deriving Repr, DecidableEq

/-- `isDataFresh` of `db-businesses.ts` lines 208-235.  `none` is the SQL
null (line 213 returns false); `.invalid` is an unparseable string whose
NaN difference makes the `<` comparison false; otherwise the check is
`(now - t) ms / 3,600,000 < maxAgeHours`. -/
def isDataFresh (lastCheckedAt : Option DateVal) (nowMs : ℤ)
    (maxAgeHours : ℚ) : Bool :=
  match lastCheckedAt with
  | none => false
  | some .invalid => false
  | some (.valid t) => decide (((nowMs - t : ℤ) : ℚ) / (1000 * 60 * 60) < maxAgeHours)

/-- A normalized business record as assembled by the source adapters
(interface `BusinessResult`, `route.ts` lines 90-99). -/
structure BusinessResult where
  name : String
  address : String
  place_id : String
  lat : Option ℚ
  lon : Option ℚ
  website : Option String
  google_place_id : Option String
deriving Repr, DecidableEq

/-- A row of the Supabase `businesses` table (interface `BusinessRecord`
of `db-businesses.ts` lines 35-40). -/
structure BusinessRecord where
  name : String
  place_id : String
  has_website : Option Bool
  last_checked_at : Option DateVal
deriving Repr, DecidableEq

/-- The `businesses` table, keyed by the UNIQUE column `place_id`. -/
def Cache : Type := String → Option BusinessRecord

/-- `updateBusiness` of `db-businesses.ts` lines 158-192: a SQL
`UPDATE ... WHERE place_id = ...`, hence a no-op when no row matches.
Only the fields present in the `updates` object change; at both call
shapes in the source `has_website` and `last_checked_at` are present and
`name` is present only in the upsert path (`newName`). -/
def updateBusiness (c : Cache) (placeId : String) (newName : Option String)
    (hw : Option Bool) (ts : Option DateVal) : Cache :=
  fun k =>
    if k = placeId then
      match c k with
      | some row =>
          some { row with
                 name := newName.getD row.name
                 has_website := hw
                 last_checked_at := ts }
      | none => none
    else c k

/-- `insertBusiness` of `db-businesses.ts` lines 117-143 (only reached
when no row with this `place_id` exists). -/
def insertBusiness (c : Cache) (row : BusinessRecord) : Cache :=
  fun k => if k = row.place_id then some row else c k

/-- `upsertBusiness` of `db-businesses.ts` lines 249-274: read, then
update (name, value, fresh timestamp) when the row exists, else insert
with a fresh timestamp. -/
def upsertBusiness (c : Cache) (b : BusinessRecord) (nowMs : ℤ) : Cache :=
  match c b.place_id with
  | some _ =>
      updateBusiness c b.place_id (some b.name) b.has_website
        (some (DateVal.valid nowMs))
  | none => insertBusiness c { b with last_checked_at := some (DateVal.valid nowMs) }

/-- The possible outcomes of one Mino automation round trip, as
distinguished by `checkBusinessWebsite` (`mino-api.ts` lines 39-223). -/
inductive MinoOutcome where
  | fetchError
  | httpError
  | unparseable
  | missingField
  | nonBoolField
  | okBool (b : Bool)
deriving Repr, DecidableEq

/-- The tri-state value `checkBusinessWebsite` returns: a well-formed
boolean `resultJson.has_website` is authoritative, every failure mode
(network/abort error, non-2xx status, unparseable body, missing or
non-boolean field) yields null. -/
def checkBusinessWebsite : MinoOutcome → Option Bool
  | .okBool b => some b
  | _ => none

/-- `buildGoogleMapsSearchUrl` of `mino-api.ts` lines 371-374
(URI-escaping of the query is not modelled). -/
def buildGoogleMapsSearchUrl (name address : String) : String :=
  "https://www.google.com/maps/search/?api=1&query=" ++ name ++ " " ++ address

/-- Outbound service calls and cache writes performed by
`resolveHasWebsite`, in program order. -/
inductive Effect where
  | googleFindPlaceId (query : String)
  | googleGetWebsite (placeId : String)
  | minoCheck (attempt : ℕ)
  | sleepMs (ms : ℕ)
  | cacheWrite (placeId : String)
deriving Repr, DecidableEq

/-- Oracles for the external collaborators of `resolveHasWebsite`:
the cache table, the clock, `findGooglePlaceId` keyed by its text query,
`getGooglePlaceWebsite` keyed by the Google place id (`none` models the
null those functions return on any failure, empty or missing field), and
the outcome of the k-th Mino attempt for a given Google Maps URL. -/
structure World where
  cache : Cache
  nowMs : ℤ
  googleFind : String → Option String
  googleWebsite : String → Option String
  mino : String → ℕ → MinoOutcome

/-- JS truthiness of a nullable string: null and the empty string are
falsy. -/
def jsTruthy : Option String → Option String
  | some s => if s = "" then none else some s
  | none => none

/-- Step 1 of `resolveHasWebsite` (`route.ts` lines 729-732): the cached
value, provided the row exists, `has_website` is non-null and the row is
fresh. -/
def freshCacheHit (cached : Option BusinessRecord) (nowMs : ℤ) : Option Bool :=
  match cached with
  | some c =>
      match c.has_website with
      | some hw => if isDataFresh c.last_checked_at nowMs 24 then some hw else none
      | none => none
  | none => none

/-- JS `String.prototype.trim`: strip leading and trailing whitespace.
A structural list-level model is used rather than `String.trim` so that
concrete evaluation stays within kernel reduction. -/
def strTrim (s : String) : String :=
  ⟨((s.data.dropWhile Char.isWhitespace).reverse.dropWhile Char.isWhitespace).reverse⟩

/-- The declared-website test of `route.ts` line 735:
`business.website && business.website.trim().length > 0`. -/
def declaredWebsite : Option String → Bool
  | some s => s != "" && strTrim s != ""
  | none => false

/-- The retry loop of `route.ts` lines 798-811.  `attempt` is the loop
counter, `remaining` the number of iterations the bound
`attempt <= retries` still allows (`retries + 1` at entry).  A non-null
tri-state breaks the loop; a null result sleeps `400 + attempt * 400` ms
when attempts remain. -/
def minoRetryGo (mino : ℕ → MinoOutcome) (retries : ℕ) :
    ℕ → ℕ → Option Bool × List Effect
  | _, 0 => (none, [])
  | attempt, r + 1 =>
      match checkBusinessWebsite (mino attempt) with
      | some b => (some b, [Effect.minoCheck attempt])
      | none =>
          if attempt < retries then
            let rest := minoRetryGo mino retries (attempt + 1) r
            (rest.1,
             Effect.minoCheck attempt :: Effect.sleepMs (400 + attempt * 400) :: rest.2)
          else (none, [Effect.minoCheck attempt])

/-- `resolveHasWebsite` of `route.ts` lines 724-823, translated branch by
branch.  The returned structure carries the tri-state result, the trace
of outbound calls and cache writes, and the cache after all writes.
The two boolean flags model the presence of `MINO_API_KEY` and
`GOOGLE_PLACES_API_KEY`.  Cache writes whose underlying promise may
reject are modelled as succeeding (the source swallows such errors and
returns its in-memory result either way). -/
structure ResolveOut where
  result : Option Bool
  effects : List Effect
  cache : Cache

def resolveHasWebsite (w : World) (b : BusinessResult) (retries : ℕ)
    (minoApiKey googleApiKey : Bool) : ResolveOut :=
  let cached := w.cache b.place_id
  match freshCacheHit cached w.nowMs with
  | some hw => ⟨some hw, [], w.cache⟩
  | none =>
    if declaredWebsite b.website then
      ⟨some true, [Effect.cacheWrite b.place_id],
        updateBusiness w.cache b.place_id none (some true)
          (some (DateVal.valid w.nowMs))⟩
    else
      let gQuery := b.name ++ " " ++ b.address
      let gFind : Option String × List Effect :=
        if googleApiKey then
          match jsTruthy b.google_place_id with
          | some pid => (some pid, [])
          | none => (w.googleFind gQuery, [Effect.googleFindPlaceId gQuery])
        else (none, [])
      let gDetails : Option (Option String) × List Effect :=
        match jsTruthy gFind.1 with
        | some pid => (some (w.googleWebsite pid), [Effect.googleGetWebsite pid])
        | none => (none, [])
      match gDetails.1 with
      | some (some web) =>
          ⟨some (strTrim web != ""),
            gFind.2 ++ gDetails.2 ++ [Effect.cacheWrite b.place_id],
            updateBusiness w.cache b.place_id none (some (strTrim web != ""))
              (some (DateVal.valid w.nowMs))⟩
      | _ =>
          let preEffects := gFind.2 ++ gDetails.2
          let cache1 :=
            match cached with
            | none =>
                upsertBusiness w.cache
                  ⟨b.name, b.place_id, none, some (DateVal.valid w.nowMs)⟩ w.nowMs
            | some _ => w.cache
          let eff1 := preEffects ++
            (match cached with
             | none => [Effect.cacheWrite b.place_id]
             | some _ => [])
          if minoApiKey then
            let url := buildGoogleMapsSearchUrl b.name b.address
            let loop := minoRetryGo (w.mino url) retries 0 (retries + 1)
            ⟨loop.1, eff1 ++ loop.2 ++ [Effect.cacheWrite b.place_id],
              updateBusiness cache1 b.place_id none loop.1
                (some (DateVal.valid w.nowMs))⟩
          else ⟨none, eff1, cache1⟩

/-- The seen-set filter of POST (`route.ts` lines 1119-1125): keep a
record iff its `place_id` is not in the running set, adding the ids of
kept records as the filter callback runs, in element order. -/
def dedupStep (seen : List String) :
    List BusinessResult → List BusinessResult × List String
  | [] => ([], seen)
  | b :: rest =>
      if b.place_id ∈ seen then dedupStep seen rest
      else
        let r := dedupStep (b.place_id :: seen) rest
        (b :: r.1, r.2)

/-- The seen set threaded across the tiles of one invocation
(`seenPlaceIds` is created once per stream, `route.ts` line 1045). -/
def dedupTiles (seen : List String) :
    List (List BusinessResult) → List (List BusinessResult) × List String
  | [] => ([], seen)
  | t :: ts =>
      let r := dedupStep seen t
      let rest := dedupTiles r.2 ts
      (r.1 :: rest.1, rest.2)

/-- The SSE events of the tile loop that the claims speak about.
`metadata`, `heartbeat` and the wall-clock `elapsedMs` fields are outside
the model. -/
inductive StreamEvent where
  | tileEv (id : String)
  | businessEv (place_id : String)
  | progressEv (tilesSearched totalTiles businessesFound uniqueBusinesses : ℕ)
  | doneEv (totalFound tilesSearched totalTiles uniqueBusinesses : ℕ)
      (hasMore : Bool) (nextTileIndex : Option ℕ)
deriving Repr, DecidableEq

/-- The per-tile resolver pass (`route.ts` lines 1127-1146): resolve each
deduplicated business and emit a `business` event for each tri-state
false.  The sliding-window execution interleaves resolutions; the claims
about the window itself are settled on `processWithConcurrency` below,
and no claim depends on the relative order of `business` events, so this
pass is sequential in submission order.  Returns the events, the cache
after all resolver writes, and the number of businesses found. -/
def resolveTilePass (w : World) (retries : ℕ) (minoKey googleKey : Bool) :
    List BusinessResult → Cache → List StreamEvent × Cache × ℕ
  | [], cache => ([], cache, 0)
  | b :: rest, cache =>
      let out := resolveHasWebsite { w with cache := cache } b retries minoKey googleKey
      let tail := resolveTilePass w retries minoKey googleKey rest out.cache
      if out.result = some false then
        (StreamEvent.businessEv b.place_id :: tail.1, tail.2.1, tail.2.2 + 1)
      else (tail.1, tail.2.1, tail.2.2)

/-- State threaded through the tile loop of POST. -/
structure LoopSt where
  cache : Cache
  seen : List String
  found : ℕ
  searched : ℕ

/-- The tile loop of POST (`route.ts` lines 1075-1156).  `tileRecords`
aggregates, per tile id, the concatenated adapter results that the four
fetches push into `tileBusinesses`.  `abortAfter` models
`request.signal`: `some a` means the signal is observed aborted at the
top of loop iteration `a` (the signal fired while iteration `a - 1` was
in flight); `none` means it never fires. -/
def runTileLoop (w : World) (retries : ℕ) (minoKey googleKey : Bool)
    (tileRecords : String → List BusinessResult)
    (startIndex totalTiles : ℕ) :
    List GeoTile → Option ℕ → LoopSt → List StreamEvent × LoopSt
  | [], _, st => ([], st)
  | tile :: rest, abortAfter, st =>
      if abortAfter = some 0 then ([], st)
      else
        let d := dedupStep st.seen (tileRecords tile.id)
        let pass := resolveTilePass w retries minoKey googleKey d.1 st.cache
        let st2 : LoopSt :=
          ⟨pass.2.1, d.2, st.found + pass.2.2, st.searched + 1⟩
        let tailAbort : Option ℕ :=
          match abortAfter with
          | some (a + 1) => some a
          | _ => none
        let tail := runTileLoop w retries minoKey googleKey tileRecords
          startIndex totalTiles rest tailAbort st2
        (StreamEvent.tileEv tile.id ::
          (pass.1 ++
            (StreamEvent.progressEv (startIndex + st2.searched) totalTiles
              st2.found st2.seen.length :: tail.1)),
         tail.2)

/-- `route.ts` lines 1020-1022: `startTileIndex` from the request body,
`Number.isFinite` guarded, floored and clamped below at 0 (`none` models
a missing or non-finite value). -/
def normalizedStartOf (startTileIndex : Option ℤ) : ℕ :=
  match startTileIndex with
  | some z => z.toNat
  | none => 0

/-- `route.ts` line 1023: clamp into `[0, tileCount - 1]`. -/
def startIndexOf (tileCount : ℕ) (startTileIndex : Option ℤ) : ℕ :=
  min (normalizedStartOf startTileIndex) (tileCount - 1)

/-- `route.ts` line 1024: the end of this invocation's closed batch. -/
def endIndexOf (tileCount : ℕ) (startTileIndex : Option ℤ)
    (maxTilesPerRequest : ℕ) : ℕ :=
  min (startIndexOf tileCount startTileIndex + maxTilesPerRequest) tileCount

/-- `tiles.slice(startIndex, endIndex)` (`route.ts` line 1025). -/
def tilesBatchOf (tiles : List GeoTile) (startTileIndex : Option ℤ)
    (maxTilesPerRequest : ℕ) : List GeoTile :=
  (tiles.drop (startIndexOf tiles.length startTileIndex)).take
    (endIndexOf tiles.length startTileIndex maxTilesPerRequest -
      startIndexOf tiles.length startTileIndex)

/-- The stream body of POST (`route.ts` lines 1030-1179), from the tile
loop to the terminal `done` event, with its `hasMore`/`nextTileIndex`
computed from the planned batch end exactly as in lines 1158-1167. -/
def runStream (w : World) (retries : ℕ) (minoKey googleKey : Bool)
    (tileRecords : String → List BusinessResult) (tiles : List GeoTile)
    (startTileIndex : Option ℤ) (maxTilesPerRequest : ℕ)
    (abortAfter : Option ℕ) : List StreamEvent :=
  let startIndex := startIndexOf tiles.length startTileIndex
  let endIndex := endIndexOf tiles.length startTileIndex maxTilesPerRequest
  let batch := tilesBatchOf tiles startTileIndex maxTilesPerRequest
  let run := runTileLoop w retries minoKey googleKey tileRecords startIndex
    tiles.length batch abortAfter ⟨w.cache, [], 0, 0⟩
  run.1 ++
    [StreamEvent.doneEv run.2.found (startIndex + run.2.searched) tiles.length
      run.2.seen.length (decide (endIndex < tiles.length))
      (if endIndex < tiles.length then some endIndex else none)]

/-- The tile ids announced by a stream, in order. -/
def tileEventsOf : List StreamEvent → List String
  | [] => []
  | StreamEvent.tileEv id :: t => id :: tileEventsOf t
  | _ :: t => tileEventsOf t

/-- The `hasMore` field of the terminal event, when the stream ends in a
`done` event. -/
def doneHasMore (evs : List StreamEvent) : Option Bool :=
  match evs.getLast? with
  | some (StreamEvent.doneEv _ _ _ _ hm _) => some hm
  | _ => none

/-- The `nextTileIndex` field of the terminal event, when the stream ends
in a `done` event. -/
def doneNextTile (evs : List StreamEvent) : Option (Option ℕ) :=
  match evs.getLast? with
  | some (StreamEvent.doneEv _ _ _ _ _ nt) => some nt
  | _ => none

/-- Launch/settlement trace of `processWithConcurrency`
(`route.ts` lines 825-842). -/
inductive ConcEvent (α : Type) where
  | launch (item : α)
  | settle (item : α)
deriving Repr, DecidableEq

/-- One resolution of `Promise.race(executing)`: the scheduler index picks
which in-flight task settles; its `finally` removes it from the set. -/
def raceSettle (idx : ℕ) (l : List α) : Option (α × List α) :=
  match l.get? (idx % l.length) with
  | some a => some (a, l.eraseIdx (idx % l.length))
  | none => none

/-- `await Promise.allSettled(executing)` (`route.ts` line 841): the
remaining in-flight tasks settle one by one, in scheduler order. -/
def drainAll (oracle : ℕ → ℕ) (l : List α) (n : ℕ) : List (ConcEvent α) :=
  match h : raceSettle (oracle n) l with
  | some (a, rest) => ConcEvent.settle a :: drainAll oracle rest (n + 1)
  | none => []
termination_by l.length
decreasing_by
  simp only [raceSettle] at h
  rcases hg : l.get? (oracle n % l.length) with _ | b
  · rw [hg] at h; exact absurd h (by simp)
  · rw [hg] at h
    have hlen : oracle n % l.length < l.length := by
      rcases Nat.eq_zero_or_pos l.length with h0 | h0
      · rw [List.get?_eq_none.mpr (by omega)] at hg; exact absurd hg (by simp)
      · exact Nat.mod_lt _ h0
    simp only [Option.some.injEq, Prod.mk.injEq] at h
    obtain ⟨h1, h2⟩ := h
    subst h2
    have := List.length_eraseIdx_add_one hlen
    omega

/-- The loop body of `processWithConcurrency`: launch the handler for the
next item, and when the in-flight set has reached `limit`, suspend on
`Promise.race` until the scheduler settles one task. -/
def simLoop (limit : ℕ) (oracle : ℕ → ℕ) :
    List α → List α → ℕ → List (ConcEvent α)
  | [], executing, n => drainAll oracle executing n
  | i :: rest, executing, n =>
      let executing2 := executing ++ [i]
      if limit ≤ executing2.length then
        match raceSettle (oracle n) executing2 with
        | some (a, remaining) =>
            ConcEvent.launch i :: ConcEvent.settle a ::
              simLoop limit oracle rest remaining (n + 1)
        | none => ConcEvent.launch i :: simLoop limit oracle rest executing2 n
      else ConcEvent.launch i :: simLoop limit oracle rest executing2 n

/-- `processWithConcurrency(items, limit, handler)` as a trace, given a
settlement scheduler. -/
def processWithConcurrency (items : List α) (limit : ℕ) (oracle : ℕ → ℕ) :
    List (ConcEvent α) :=
  simLoop limit oracle items [] 0

/-- Checks that, starting from `cur` in-flight handlers, the in-flight
count stays at or below `limit` along the whole trace. -/
def inFlightBounded (limit : ℕ) : ℕ → List (ConcEvent α) → Bool
  | _, [] => true
  | cur, ConcEvent.launch _ :: t =>
      decide (cur + 1 ≤ limit) && inFlightBounded limit (cur + 1) t
  | cur, ConcEvent.settle _ :: t => inFlightBounded limit (cur - 1) t

/-- Checks that at most `1 - c` settlements separate consecutive
launches: with `c = 0` at the head, every launch is preceded by at most
one settlement since the previous launch (the race waits for any ONE
task, never for all). -/
def launchGapsOk : ℕ → List (ConcEvent α) → Bool
  | _, [] => true
  | c, ConcEvent.launch _ :: t => decide (c ≤ 1) && launchGapsOk 0 t
  | c, ConcEvent.settle _ :: t => launchGapsOk (c + 1) t

/-- The items whose handler was launched, in launch order. -/
def launchesOf : List (ConcEvent α) → List α
  | [] => []
  | ConcEvent.launch i :: t => i :: launchesOf t
  | ConcEvent.settle _ :: t => launchesOf t

/-- The items whose handler settled, in settlement order. -/
def settlesOf : List (ConcEvent α) → List α
  | [] => []
  | ConcEvent.launch _ :: t => settlesOf t
  | ConcEvent.settle i :: t => i :: settlesOf t

/-- A business record with no declared website and no Google place id,
used to exercise the resolver paths on concrete inputs. -/
def bPlain : BusinessResult :=
  ⟨"Cafe A", "1 Main St", "osm:node:1", none, none, none, none⟩

/-- A world whose cache holds a row for `bPlain` checked 23h59m ago
(value true), with Google oracles empty and the Mino agent answering a
clean false. -/
def wFresh : World :=
  ⟨fun k => if k = "osm:node:1" then
      some ⟨"Cafe A", "osm:node:1", some true, some (DateVal.valid 0)⟩
    else none,
   86340000, fun _ => none, fun _ => none, fun _ _ => MinoOutcome.okBool false⟩

/-- The same world observed at age 24h + 1s. -/
def wStale : World :=
  ⟨wFresh.cache, 86401000, fun _ => none, fun _ => none,
   fun _ _ => MinoOutcome.okBool false⟩

/-- A world with an empty cache and failing downstream oracles. -/
def wEmpty : World :=
  ⟨fun _ => none, 1000, fun _ => none, fun _ => none,
   fun _ _ => MinoOutcome.fetchError⟩

/-- A business record carrying a declared provider website. -/
def bDeclared : BusinessResult :=
  ⟨"Cafe B", "2 Main St", "osm:node:2", none, none, some "http://x.com", none⟩

/-- A world holding a placeholder row (`has_website` null) for
`bDeclared`. -/
def wRow : World :=
  ⟨fun k => if k = "osm:node:2" then
      some ⟨"Old Name", "osm:node:2", none, some (DateVal.valid 0)⟩
    else none,
   5000, fun _ => none, fun _ => none, fun _ _ => MinoOutcome.fetchError⟩

/-- The Mino effect trace for `d` indeterminate attempts starting at
`attempt` (each followed by its linear backoff `400 * (attempt + 1)` ms),
then one final attempt. -/
def minoTrace (attempt : ℕ) : ℕ → List Effect
  | 0 => [Effect.minoCheck attempt]
  | d + 1 =>
      Effect.minoCheck attempt :: Effect.sleepMs (400 + attempt * 400) ::
        minoTrace (attempt + 1) d

/-- The C1 claim as stated: if the signal fires while batch tile `a - 1`
is processing (observed at the top of iteration `a`) and later tiles of
the query remain, then no later tile is announced AND the `done` event
carries `hasMore = true` with `nextTileIndex` pointing at the interrupted
tile. -/
def claimC1 : Prop :=
  ∀ (w : World) (retries : ℕ) (minoKey googleKey : Bool)
    (tileRecords : String → List BusinessResult) (tiles : List GeoTile)
    (sti : Option ℤ) (maxT : ℕ) (a : ℕ),
    1 ≤ a →
    a ≤ (tilesBatchOf tiles sti maxT).length →
    startIndexOf tiles.length sti + a < tiles.length →
    (tileEventsOf
        (runStream w retries minoKey googleKey tileRecords tiles sti maxT (some a)) =
      ((tilesBatchOf tiles sti maxT).take a).map GeoTile.id) ∧
    doneHasMore
        (runStream w retries minoKey googleKey tileRecords tiles sti maxT (some a)) =
      some true ∧
    doneNextTile
        (runStream w retries minoKey googleKey tileRecords tiles sti maxT (some a)) =
      some (some (startIndexOf tiles.length sti + (a - 1)))

/-- Five tiles with inert bounds, for concrete stream runs. -/
def testTiles : List GeoTile :=
  [⟨"tile-0", ⟨0, 0, 0, 0⟩⟩, ⟨"tile-1", ⟨0, 0, 0, 0⟩⟩, ⟨"tile-2", ⟨0, 0, 0, 0⟩⟩,
   ⟨"tile-3", ⟨0, 0, 0, 0⟩⟩, ⟨"tile-4", ⟨0, 0, 0, 0⟩⟩]

/-- The grid index whose tile covers coordinate `p` (km) along one axis,
taken toward the origin: `floor (|p| / s)` with the sign of `p`. -/
def chooseIdx (p s : ℚ) : ℤ :=
  if 0 ≤ p then ⌊p / s⌋ else -⌊(-p) / s⌋

/-- The degree-cosine facts the model relies on: value 1 at the equator,
positive and at most 1 elsewhere (true of the real cosine for latitudes
strictly between -90 and 90). -/
def CosFnSpec (cosFn : ℚ → ℚ) : Prop :=
  cosFn 0 = 1 ∧ ∀ q, 0 < cosFn q ∧ cosFn q ≤ 1

/-- C4 as stated by the spec: for every center, radius, tile size and
overlap with `radiusKm >= tileSizeKm`, every point within `radiusKm`
(flat-earth km offsets `dxKm, dyKm` from the center) lies in the bounding
box of some generated tile. -/
def claimC4 : Prop :=
  ∀ (cosFn : ℚ → ℚ), CosFnSpec cosFn →
    ∀ (center : GeoPoint) (radiusKm tileSizeKm overlapKm dxKm dyKm : ℚ),
      tileSizeKm ≤ radiusKm →
      dxKm ^ 2 + dyKm ^ 2 ≤ radiusKm ^ 2 →
      ∃ t ∈ buildTiles cosFn center radiusKm tileSizeKm overlapKm,
        inTileBounds t (center.lat + kmToLatDegrees dyKm)
          (center.lon + kmToLngDegrees cosFn dxKm center.lat) = true

theorem intRangeIncl_one : intRangeIncl (-1) 1 = [-1, 0, 1] := by decide

example : (buildTiles (fun _ => 1) ⟨0, 0⟩ 1 (1/2) 0).length = 5 := by
  norm_num [buildTiles, tileOffsets, tileKeep, intRangeIncl_one,
    List.filterMap_cons, Int.cast_zero, Int.cast_one]
example : isDataFresh (some (.valid 0)) 86340000 24 = true := by
  norm_num [isDataFresh]
example : isDataFresh (some (.valid 0)) 86401000 24 = false := by
  norm_num [isDataFresh]
example : isDataFresh (some (.valid 0)) 86400000 24 = false := by
  norm_num [isDataFresh]

/-- The millisecond form of the freshness test: for integer timestamps,
`(now - t) / 3,600,000 < 24` over the rationals is `now - t < 86,400,000`. -/
theorem isDataFresh_iff_ms (lca : Option DateVal) (nowMs : ℤ) :
    isDataFresh lca nowMs 24 = true ↔
      ∃ t, lca = some (DateVal.valid t) ∧ nowMs - t < 86400000 := by
  rcases lca with _ | lv
  · simp [isDataFresh]
  · rcases lv with t | _
    · simp only [isDataFresh, decide_eq_true_eq]
      constructor
      · intro h
        refine ⟨t, rfl, ?_⟩
        have h2 : ((nowMs - t : ℤ) : ℚ) < 86400000 := by
          have h3 : (0 : ℚ) < 1000 * 60 * 60 := by norm_num
          calc ((nowMs - t : ℤ) : ℚ)
              = ((nowMs - t : ℤ) : ℚ) / (1000 * 60 * 60) * (1000 * 60 * 60) := by
                field_simp
            _ < 24 * (1000 * 60 * 60) := by
                exact mul_lt_mul_of_pos_right h h3
            _ = 86400000 := by norm_num
        exact_mod_cast h2
      · rintro ⟨s, hs, hlt⟩
        obtain rfl : t = s := by simpa using hs
        rw [div_lt_iff (by norm_num : (0 : ℚ) < 1000 * 60 * 60)]
        calc ((nowMs - t : ℤ) : ℚ) < 86400000 := by exact_mod_cast hlt
          _ = 24 * (1000 * 60 * 60) := by norm_num
    · simp [isDataFresh]

/-- Step 1 of the resolver in isolation: a fresh, non-null cache hit is
returned as-is, with no effects and no cache change. -/
theorem resolveHasWebsite_cacheHit (w : World) (b : BusinessResult)
    (retries : ℕ) (minoKey googleKey : Bool) (hw : Bool)
    (h : freshCacheHit (w.cache b.place_id) w.nowMs = some hw) :
    resolveHasWebsite w b retries minoKey googleKey = ⟨some hw, [], w.cache⟩ := by
  unfold resolveHasWebsite
  simp [h]

/-- C2: a cache entry that exists, has a non-null `has_website` and a
valid timestamp strictly younger than 24 hours makes `resolveHasWebsite`
return exactly the cached value, with an empty effect trace (no Google
Places lookup, no Mino request, no cache write) and the cache unchanged. -/
theorem resolve_fresh_cache_short_circuit (w : World) (b : BusinessResult)
    (retries : ℕ) (minoKey googleKey : Bool) (c : BusinessRecord) (hw : Bool)
    (t : ℤ) (hc : w.cache b.place_id = some c) (hhw : c.has_website = some hw)
    (ht : c.last_checked_at = some (DateVal.valid t))
    (hage : w.nowMs - t < 86400000) :
    resolveHasWebsite w b retries minoKey googleKey = ⟨some hw, [], w.cache⟩ := by
  apply resolveHasWebsite_cacheHit
  rw [hc]
  have hfresh : isDataFresh c.last_checked_at w.nowMs 24 = true :=
    (isDataFresh_iff_ms _ _).mpr ⟨t, ht, hage⟩
  simp [freshCacheHit, hhw, hfresh]

theorem wFresh_cache_lookup :
    wFresh.cache bPlain.place_id =
      some ⟨"Cafe A", "osm:node:1", some true, some (DateVal.valid 0)⟩ := rfl

/-- C2 witness: the fresh world resolves from cache with no effects. -/
theorem resolve_fresh_cache_short_circuit_witness :
    resolveHasWebsite wFresh bPlain 2 true true = ⟨some true, [], wFresh.cache⟩ :=
  resolve_fresh_cache_short_circuit wFresh bPlain 2 true true
    ⟨"Cafe A", "osm:node:1", some true, some (DateVal.valid 0)⟩ true 0
    wFresh_cache_lookup rfl rfl (by norm_num [wFresh])

/-- C7: `isDataFresh(lastCheckedAt, 24)` is true exactly when the
timestamp is non-null, parses to a valid date and is strictly less than
24 hours old; consequently a resolver cache entry aged 23h59m is served
from the cache with no verification effects, while one aged 24h + 1s
falls through to live re-verification (here: one Mino attempt and a
cache write instead of a cache read). -/
theorem isDataFresh_boundary :
    (∀ (lca : Option DateVal) (nowMs : ℤ),
        isDataFresh lca nowMs 24 = true ↔
          ∃ t, lca = some (DateVal.valid t) ∧ nowMs - t < 86400000) ∧
    isDataFresh (some (DateVal.valid 0)) 86340000 24 = true ∧
    isDataFresh (some (DateVal.valid 0)) 86401000 24 = false ∧
    resolveHasWebsite wFresh bPlain 2 true false =
      ⟨some true, [], wFresh.cache⟩ ∧
    (resolveHasWebsite wStale bPlain 0 true false).result = some false ∧
    (resolveHasWebsite wStale bPlain 0 true false).effects =
      [Effect.minoCheck 0, Effect.cacheWrite "osm:node:1"] := by
  refine ⟨isDataFresh_iff_ms, by norm_num [isDataFresh], by norm_num [isDataFresh],
    ?_, ?_, ?_⟩
  · exact resolve_fresh_cache_short_circuit wFresh bPlain 2 true false
      ⟨"Cafe A", "osm:node:1", some true, some (DateVal.valid 0)⟩ true 0
      wFresh_cache_lookup rfl rfl (by norm_num [wFresh])
  · have hrow : freshCacheHit
        (some ⟨"Cafe A", "osm:node:1", some true, some (DateVal.valid 0)⟩)
        86401000 = none := by
      have hf : isDataFresh (some (DateVal.valid 0)) 86401000 24 = false := by
        norm_num [isDataFresh]
      simp [freshCacheHit, hf]
    unfold resolveHasWebsite
    simp [wStale, wFresh, bPlain, hrow, declaredWebsite, jsTruthy,
      minoRetryGo, checkBusinessWebsite]
  · have hrow : freshCacheHit
        (some ⟨"Cafe A", "osm:node:1", some true, some (DateVal.valid 0)⟩)
        86401000 = none := by
      have hf : isDataFresh (some (DateVal.valid 0)) 86401000 24 = false := by
        norm_num [isDataFresh]
      simp [freshCacheHit, hf]
    unfold resolveHasWebsite
    simp [wStale, wFresh, bPlain, hrow, declaredWebsite, jsTruthy,
      minoRetryGo, checkBusinessWebsite]

/-- C8 counterexample: for a business with a declared website and no
existing cache row, the resolver returns true, but the declared-website
branch persists through a bare UPDATE, which matches no row — no cache
entry `(true, now)` is created. -/
theorem declared_website_no_insert :
    bDeclared.website = some "http://x.com" ∧
    wEmpty.cache "osm:node:2" = none ∧
    (resolveHasWebsite wEmpty bDeclared 2 true true).result = some true ∧
    (resolveHasWebsite wEmpty bDeclared 2 true true).cache "osm:node:2" = none := by
  refine ⟨rfl, rfl, ?_, ?_⟩ <;> decide

/-- C8 amended: when the resolver is not short-circuited by a fresh
cache hit, a non-empty (non-whitespace) declared website yields true with
a single cache-write effect and no network call; the write overwrites an
existing row with `(true, now)`, but is a no-op when no row exists (the
branch uses a bare UPDATE, not an upsert). -/
theorem declared_website_update_only (w : World) (b : BusinessResult)
    (retries : ℕ) (minoKey googleKey : Bool) (s : String)
    (hw : b.website = some s) (hs : s ≠ "") (hst : strTrim s ≠ "")
    (hnf : freshCacheHit (w.cache b.place_id) w.nowMs = none) :
    resolveHasWebsite w b retries minoKey googleKey =
      ⟨some true, [Effect.cacheWrite b.place_id],
        updateBusiness w.cache b.place_id none (some true)
          (some (DateVal.valid w.nowMs))⟩ ∧
    (∀ row, w.cache b.place_id = some row →
      (resolveHasWebsite w b retries minoKey googleKey).cache b.place_id =
        some { row with has_website := some true
                        last_checked_at := some (DateVal.valid w.nowMs) }) ∧
    (w.cache b.place_id = none →
      (resolveHasWebsite w b retries minoKey googleKey).cache b.place_id = none) := by
  have hdecl : declaredWebsite b.website = true := by
    simp [declaredWebsite, hw, hs, hst]
  have hres : resolveHasWebsite w b retries minoKey googleKey =
      ⟨some true, [Effect.cacheWrite b.place_id],
        updateBusiness w.cache b.place_id none (some true)
          (some (DateVal.valid w.nowMs))⟩ := by
    unfold resolveHasWebsite
    simp [hnf, hdecl]
  refine ⟨hres, ?_, ?_⟩
  · intro row hrow
    rw [hres]
    simp [updateBusiness, hrow]
  · intro hnone
    rw [hres]
    simp [updateBusiness, hnone]

/-- C8 amended, witness at a world with an existing placeholder row. -/
theorem declared_website_update_only_witness :
    resolveHasWebsite wRow bDeclared 2 true true =
      ⟨some true, [Effect.cacheWrite "osm:node:2"],
        updateBusiness wRow.cache "osm:node:2" none (some true)
          (some (DateVal.valid 5000))⟩ ∧
    (∀ row, wRow.cache "osm:node:2" = some row →
      (resolveHasWebsite wRow bDeclared 2 true true).cache "osm:node:2" =
        some { row with has_website := some true
                        last_checked_at := some (DateVal.valid 5000) }) ∧
    (wRow.cache "osm:node:2" = none →
      (resolveHasWebsite wRow bDeclared 2 true true).cache "osm:node:2" = none) :=
  declared_website_update_only wRow bDeclared 2 true true "http://x.com"
    rfl (by decide) (by decide) rfl

/-- Success case of the retry loop: after `d` indeterminate attempts a
well-formed boolean at attempt `attempt + d` ends the loop at once. -/
theorem minoRetryGo_success (mino : ℕ → MinoOutcome) (retries : ℕ) :
    ∀ (d attempt : ℕ) (b : Bool),
      (∀ j, j < d → checkBusinessWebsite (mino (attempt + j)) = none) →
      checkBusinessWebsite (mino (attempt + d)) = some b →
      attempt + d ≤ retries →
      minoRetryGo mino retries attempt (retries + 1 - attempt) =
        (some b, minoTrace attempt d) := by
  intro d
  induction d with
  | zero =>
      intro attempt b _ hb hle
      obtain ⟨k, hk⟩ : ∃ k, retries + 1 - attempt = k + 1 := ⟨retries - attempt, by omega⟩
      rw [hk]
      simp only [minoRetryGo]
      rw [show attempt + 0 = attempt from rfl] at hb
      rw [hb]
      rfl
  | succ d ih =>
      intro attempt b hfail hb hle
      obtain ⟨k, hk⟩ : ∃ k, retries + 1 - attempt = k + 1 := ⟨retries - attempt, by omega⟩
      rw [hk]
      simp only [minoRetryGo]
      have h0 : checkBusinessWebsite (mino attempt) = none := by
        have := hfail 0 (by omega)
        simpa using this
      rw [h0]
      have hlt : attempt < retries := by omega
      simp only [hlt, if_true]
      have hk2 : k = retries + 1 - (attempt + 1) := by omega
      rw [hk2]
      have ihres := ih (attempt + 1) b
        (fun j hj => by
          have := hfail (j + 1) (by omega)
          simpa [Nat.add_assoc, Nat.add_comm 1 j] using this)
        (by
          have : attempt + 1 + d = attempt + (d + 1) := by omega
          rw [this]; exact hb)
        (by omega)
      rw [ihres]
      simp [minoTrace]

/-- Exhaustion case of the retry loop: all attempts up to the bound are
indeterminate, and the loop ends with null after `retries + 1` attempts. -/
theorem minoRetryGo_exhaust (mino : ℕ → MinoOutcome) (retries : ℕ) :
    ∀ (d attempt : ℕ),
      attempt + d = retries →
      (∀ j, j ≤ d → checkBusinessWebsite (mino (attempt + j)) = none) →
      minoRetryGo mino retries attempt (retries + 1 - attempt) =
        (none, minoTrace attempt d) := by
  intro d
  induction d with
  | zero =>
      intro attempt hsum hfail
      obtain ⟨k, hk⟩ : ∃ k, retries + 1 - attempt = k + 1 := ⟨retries - attempt, by omega⟩
      rw [hk]
      simp only [minoRetryGo]
      have h0 : checkBusinessWebsite (mino attempt) = none := by
        have := hfail 0 (by omega)
        simpa using this
      rw [h0]
      have : ¬ attempt < retries := by omega
      simp [this, minoTrace]
  | succ d ih =>
      intro attempt hsum hfail
      obtain ⟨k, hk⟩ : ∃ k, retries + 1 - attempt = k + 1 := ⟨retries - attempt, by omega⟩
      rw [hk]
      simp only [minoRetryGo]
      have h0 : checkBusinessWebsite (mino attempt) = none := by
        have := hfail 0 (by omega)
        simpa using this
      rw [h0]
      have hlt : attempt < retries := by omega
      simp only [hlt, if_true]
      have hk2 : k = retries + 1 - (attempt + 1) := by omega
      rw [hk2]
      have ihres := ih (attempt + 1) (by omega)
        (fun j hj => by
          have := hfail (j + 1) (by omega)
          simpa [Nat.add_assoc, Nat.add_comm 1 j] using this)
      rw [ihres]
      simp [minoTrace]

/-- C5: in the Mino fallback, a well-formed boolean attempt (true or a
clean false) ends the loop at once with no sleep and is never retried; an
indeterminate attempt is retried up to `retries` extra times (the
configured `WEBSITE_CHECK_RETRIES`, default 2) with linearly growing
backoff `400 * (attempt + 1)` ms, as pinned by the `minoTrace` effect
lists; and the final tri-state, even when still null after exhausting all
attempts, is persisted for the business identity with the current
timestamp. -/
theorem mino_retry_policy :
    (∀ (mino : ℕ → MinoOutcome) (retries : ℕ) (b : Bool),
       checkBusinessWebsite (mino 0) = some b →
       minoRetryGo mino retries 0 (retries + 1) = (some b, [Effect.minoCheck 0])) ∧
    (∀ (mino : ℕ → MinoOutcome) (retries k : ℕ) (b : Bool),
       k ≤ retries → (∀ j, j < k → checkBusinessWebsite (mino j) = none) →
       checkBusinessWebsite (mino k) = some b →
       minoRetryGo mino retries 0 (retries + 1) = (some b, minoTrace 0 k)) ∧
    (∀ (mino : ℕ → MinoOutcome) (retries : ℕ),
       (∀ j, j ≤ retries → checkBusinessWebsite (mino j) = none) →
       minoRetryGo mino retries 0 (retries + 1) = (none, minoTrace 0 retries)) ∧
    (∀ (w : World) (b : BusinessResult) (retries : ℕ),
       freshCacheHit (w.cache b.place_id) w.nowMs = none →
       declaredWebsite b.website = false →
       (resolveHasWebsite w b retries true false).result =
         (minoRetryGo (w.mino (buildGoogleMapsSearchUrl b.name b.address))
           retries 0 (retries + 1)).1 ∧
       ∃ rec, (resolveHasWebsite w b retries true false).cache b.place_id =
           some rec ∧
         rec.has_website =
           (minoRetryGo (w.mino (buildGoogleMapsSearchUrl b.name b.address))
             retries 0 (retries + 1)).1 ∧
         rec.last_checked_at = some (DateVal.valid w.nowMs)) := by
  refine ⟨?_, ?_, ?_, ?_⟩
  · intro mino retries b hb
    have h := minoRetryGo_success mino retries 0 0 b (fun j hj => by omega)
      (by simpa using hb) (by omega)
    simpa [minoTrace] using h
  · intro mino retries k b hk hfail hb
    have h := minoRetryGo_success mino retries k 0 b
      (fun j hj => by simpa using hfail j hj) (by simpa using hb) (by omega)
    simpa using h
  · intro mino retries hfail
    have h := minoRetryGo_exhaust mino retries retries 0 (by omega)
      (fun j hj => by simpa using hfail j hj)
    simpa using h
  · intro w b retries hnf hdecl
    unfold resolveHasWebsite
    simp only [hnf, hdecl, Bool.false_eq_true, if_false, if_true, jsTruthy]
    rcases hc : w.cache b.place_id with _ | row
    · constructor
      · simp [hc]
      · refine ⟨⟨b.name, b.place_id,
          (minoRetryGo (w.mino (buildGoogleMapsSearchUrl b.name b.address))
            retries 0 (retries + 1)).1, some (DateVal.valid w.nowMs)⟩,
          ?_, rfl, rfl⟩
        simp [hc, updateBusiness, upsertBusiness, insertBusiness]
    · constructor
      · simp [hc]
      · refine ⟨⟨row.name, row.place_id,
          (minoRetryGo (w.mino (buildGoogleMapsSearchUrl b.name b.address))
            retries 0 (retries + 1)).1, some (DateVal.valid w.nowMs)⟩,
          ?_, rfl, rfl⟩
        simp [hc, updateBusiness, upsertBusiness, insertBusiness]

/-- C5 witness: a clean false on the first attempt with retries 2; full
exhaustion with retries 2; and persistence of the loop result through
`resolveHasWebsite` on a world with no usable cache row. -/
theorem mino_retry_policy_witness :
    minoRetryGo
        (fun j => if j = 0 then MinoOutcome.okBool false else MinoOutcome.fetchError)
        2 0 3 = (some false, [Effect.minoCheck 0]) ∧
    minoRetryGo (fun _ => MinoOutcome.fetchError) 2 0 3 = (none, minoTrace 0 2) ∧
    ((resolveHasWebsite wRow bPlain 2 true false).result =
       (minoRetryGo (wRow.mino (buildGoogleMapsSearchUrl bPlain.name bPlain.address))
         2 0 3).1 ∧
     ∃ rec, (resolveHasWebsite wRow bPlain 2 true false).cache bPlain.place_id =
         some rec ∧
       rec.has_website =
         (minoRetryGo (wRow.mino (buildGoogleMapsSearchUrl bPlain.name bPlain.address))
           2 0 3).1 ∧
       rec.last_checked_at = some (DateVal.valid wRow.nowMs)) :=
  ⟨mino_retry_policy.1 _ 2 false rfl,
   mino_retry_policy.2.2.1 _ 2 (fun j _ => rfl),
   mino_retry_policy.2.2.2 wRow bPlain 2 rfl rfl⟩

/-- Ids in the seen set after a dedup pass: the incoming seen set plus
the ids of the kept records. -/
theorem dedupStep_seen_mem (bs : List BusinessResult) :
    ∀ (seen : List String) (s : String),
      s ∈ (dedupStep seen bs).2 ↔
        s ∈ seen ∨ s ∈ (dedupStep seen bs).1.map (fun b => b.place_id) := by
  induction bs with
  | nil => intro seen s; simp [dedupStep]
  | cons b rest ih =>
      intro seen s
      by_cases hb : b.place_id ∈ seen
      · simp only [dedupStep, if_pos hb]
        exact ih seen s
      · simp only [dedupStep, if_neg hb, List.map_cons, List.mem_cons]
        rw [ih (b.place_id :: seen) s]
        simp only [List.mem_cons]
        tauto

/-- Kept records were not already seen. -/
theorem dedupStep_kept_not_seen (bs : List BusinessResult) :
    ∀ (seen : List String) (b : BusinessResult),
      b ∈ (dedupStep seen bs).1 → b.place_id ∉ seen := by
  induction bs with
  | nil => intro seen b hb; simp [dedupStep] at hb
  | cons c rest ih =>
      intro seen b hb
      by_cases hc : c.place_id ∈ seen
      · rw [dedupStep, if_pos hc] at hb
        exact ih seen b hb
      · rw [dedupStep, if_neg hc] at hb
        rcases List.mem_cons.mp hb with rfl | hb2
        · exact hc
        · intro hmem
          exact ih _ b hb2 (List.mem_cons_of_mem _ hmem)

/-- The kept records of one pass have pairwise distinct ids. -/
theorem dedupStep_nodup (bs : List BusinessResult) :
    ∀ (seen : List String),
      ((dedupStep seen bs).1.map (fun b => b.place_id)).Nodup := by
  induction bs with
  | nil => intro seen; simp [dedupStep]
  | cons c rest ih =>
      intro seen
      by_cases hc : c.place_id ∈ seen
      · rw [dedupStep, if_pos hc]; exact ih seen
      · rw [dedupStep, if_neg hc]
        simp only [List.map_cons, List.nodup_cons]
        refine ⟨?_, ih _⟩
        intro hmem
        obtain ⟨b, hb, hid⟩ := List.mem_map.mp hmem
        have := dedupStep_kept_not_seen rest (c.place_id :: seen) b hb
        exact this (by rw [hid]; exact List.mem_cons_self _ _)

/-- First occurrence wins: for an unseen id, the kept record is exactly
the first input record with that id. -/
theorem dedupStep_find (bs : List BusinessResult) :
    ∀ (seen : List String) (pid : String), pid ∉ seen →
      (dedupStep seen bs).1.find? (fun b => b.place_id == pid) =
        bs.find? (fun b => b.place_id == pid) := by
  induction bs with
  | nil => intro seen pid _; simp [dedupStep]
  | cons c rest ih =>
      intro seen pid hpid
      by_cases hc : c.place_id ∈ seen
      · rw [dedupStep, if_pos hc]
        have hne : (c.place_id == pid) = false := by
          simp only [beq_eq_false_iff_ne, ne_eq]
          intro h; exact hpid (h ▸ hc)
        rw [List.find?_cons_of_neg _ (by simp [hne]), ih seen pid hpid]
      · rw [dedupStep, if_neg hc]
        by_cases heq : c.place_id = pid
        · rw [List.find?_cons_of_pos _ (by simp [heq]),
            List.find?_cons_of_pos _ (by simp [heq])]
        · rw [List.find?_cons_of_neg _ (by simp [heq]),
            List.find?_cons_of_neg _ (by simp [heq])]
          exact ih (c.place_id :: seen) pid (by simp [hpid, Ne.symm, heq])

/-- Records kept across a whole batch of tiles were unseen at entry. -/
theorem dedupTiles_kept_not_seen (tiles : List (List BusinessResult)) :
    ∀ (seen : List String) (b : BusinessResult),
      b ∈ ((dedupTiles seen tiles).1.flatten) → b.place_id ∉ seen := by
  induction tiles with
  | nil => intro seen b hb; simp [dedupTiles] at hb
  | cons t ts ih =>
      intro seen b hb
      rw [dedupTiles] at hb
      simp only [List.flatten_cons, List.mem_append] at hb
      rcases hb with hb | hb
      · exact dedupStep_kept_not_seen t seen b hb
      · intro hmem
        have hseen2 : b.place_id ∈ (dedupStep seen t).2 :=
          (dedupStep_seen_mem t seen _).mpr (Or.inl hmem)
        exact ih _ b hb hseen2

/-- Across the tiles of one invocation, each id is kept at most once. -/
theorem dedupTiles_nodup (tiles : List (List BusinessResult)) :
    ∀ (seen : List String),
      (((dedupTiles seen tiles).1.flatten).map (fun b => b.place_id)).Nodup := by
  induction tiles with
  | nil => intro seen; simp [dedupTiles]
  | cons t ts ih =>
      intro seen
      rw [dedupTiles]
      simp only [List.flatten_cons, List.map_append, List.nodup_append]
      refine ⟨dedupStep_nodup t seen, ih _, ?_⟩
      intro pid hpid hpid2
      obtain ⟨b1, hb1, hid1⟩ := List.mem_map.mp hpid
      obtain ⟨b2, hb2, hid2⟩ := List.mem_map.mp hpid2
      have hseen2 : b1.place_id ∈ (dedupStep seen t).2 :=
        (dedupStep_seen_mem t seen _).mpr
          (Or.inr (List.mem_map.mpr ⟨b1, hb1, rfl⟩))
      have := dedupTiles_kept_not_seen ts (dedupStep seen t).2 b2 hb2
      exact this (by rw [hid2, ← hid1]; exact hseen2)

/-- C3: within one invocation, the running seen-set keeps only the first
record per identity: per-tile kept ids are pairwise distinct, a kept
record for an unseen id is the first input record with that id, records
with ids already in the seen set contribute nothing, and concatenated
over all tiles of the batch each id survives at most once — so each id
is handed to the website resolver at most once per invocation. -/
theorem dedup_first_wins :
    (∀ (seen : List String) (bs : List BusinessResult),
       ((dedupStep seen bs).1.map (fun b => b.place_id)).Nodup) ∧
    (∀ (seen : List String) (bs : List BusinessResult) (pid : String),
       pid ∉ seen →
       (dedupStep seen bs).1.find? (fun b => b.place_id == pid) =
         bs.find? (fun b => b.place_id == pid)) ∧
    (∀ (seen : List String) (bs : List BusinessResult) (b : BusinessResult),
       b ∈ (dedupStep seen bs).1 → b.place_id ∉ seen) ∧
    (∀ (tiles : List (List BusinessResult)),
       ((((dedupTiles [] tiles).1).flatten).map (fun b => b.place_id)).Nodup) :=
  ⟨fun seen bs => dedupStep_nodup bs seen,
   fun seen bs pid h => dedupStep_find bs seen pid h,
   fun seen bs b h => dedupStep_kept_not_seen bs seen b h,
   fun tiles => dedupTiles_nodup tiles []⟩

/-- C3 witness: a tile containing the same id twice keeps exactly the
first copy; a later tile repeating the id contributes nothing. -/
theorem dedup_first_wins_witness :
    ((dedupStep [] [bPlain, { bPlain with name := "Copy" }]).1.map
        (fun b => b.place_id)).Nodup ∧
    (dedupStep [] [bPlain, { bPlain with name := "Copy" }]).1.find?
        (fun b => b.place_id == "osm:node:1") =
      [bPlain, { bPlain with name := "Copy" }].find?
        (fun b => b.place_id == "osm:node:1") ∧
    ((((dedupTiles [] [[bPlain], [bPlain, bDeclared]]).1).flatten).map
        (fun b => b.place_id)).Nodup :=
  ⟨dedup_first_wins.1 [] _,
   dedup_first_wins.2.1 [] _ "osm:node:1" (by simp),
   dedup_first_wins.2.2.2 _⟩

theorem raceSettle_none (idx : ℕ) (l : List α) (h : raceSettle idx l = none) :
    l = [] := by
  rcases l with _ | ⟨b, t⟩
  · rfl
  · exfalso
    unfold raceSettle at h
    have hlt : idx % (b :: t).length < (b :: t).length := Nat.mod_lt _ (by simp)
    rw [List.get?_eq_get hlt] at h
    simp at h

theorem raceSettle_len (idx : ℕ) (l : List α) (a : α) (rest : List α)
    (h : raceSettle idx l = some (a, rest)) : rest.length + 1 = l.length := by
  unfold raceSettle at h
  rcases hg : l.get? (idx % l.length) with _ | b
  · rw [hg] at h; cases h
  · rw [hg] at h
    simp only [Option.some.injEq, Prod.mk.injEq] at h
    obtain ⟨rfl, rfl⟩ := h
    exact List.length_eraseIdx_add_one (List.get?_eq_some.mp hg).1

theorem raceSettle_perm (idx : ℕ) (l : List α) (a : α) (rest : List α)
    (h : raceSettle idx l = some (a, rest)) : l.Perm (a :: rest) := by
  unfold raceSettle at h
  rcases hg : l.get? (idx % l.length) with _ | b
  · rw [hg] at h; cases h
  · rw [hg] at h
    simp only [Option.some.injEq, Prod.mk.injEq] at h
    obtain ⟨rfl, rfl⟩ := h
    obtain ⟨hlt, hget⟩ := List.get?_eq_some.mp hg
    have hb : l[idx % l.length] = b := by
      simpa [List.get_eq_getElem] using hget
    have hsplit : l = l.take (idx % l.length) ++ b :: l.drop (idx % l.length + 1) := by
      conv_lhs => rw [← List.take_append_drop (idx % l.length) l]
      rw [List.drop_eq_getElem_cons hlt, hb]
    rw [List.eraseIdx_eq_take_drop_succ]
    nth_rewrite 1 [hsplit]
    exact List.perm_middle

theorem drainAll_no_launch (oracle : ℕ → ℕ) (l : List α) (n : ℕ) :
    launchesOf (drainAll oracle l n) = [] := by
  generalize hl : l.length = len
  induction len using Nat.strong_induction_on generalizing l n with
  | _ len ih =>
    rw [drainAll]
    split
    · next a rest h =>
        simp only [launchesOf]
        have hlen := raceSettle_len _ _ _ _ h
        exact ih rest.length (by omega) rest (n + 1) rfl
    · simp [launchesOf]

theorem drainAll_settles (oracle : ℕ → ℕ) (l : List α) (n : ℕ) :
    (settlesOf (drainAll oracle l n)).Perm l := by
  generalize hl : l.length = len
  induction len using Nat.strong_induction_on generalizing l n with
  | _ len ih =>
    rw [drainAll]
    split
    · next a rest h =>
        simp only [settlesOf]
        have hlen := raceSettle_len _ _ _ _ h
        have hrec := ih rest.length (by omega) rest (n + 1) rfl
        exact (hrec.cons a).trans (raceSettle_perm _ _ _ _ h).symm
    · next h =>
        rw [raceSettle_none _ _ h]
        simp [settlesOf]

theorem drainAll_bounded (limit : ℕ) (oracle : ℕ → ℕ) (l : List α) (n cur : ℕ) :
    inFlightBounded limit cur (drainAll oracle l n) = true := by
  generalize hl : l.length = len
  induction len using Nat.strong_induction_on generalizing l n cur with
  | _ len ih =>
    rw [drainAll]
    split
    · next a rest h =>
        simp only [inFlightBounded]
        have hlen := raceSettle_len _ _ _ _ h
        exact ih rest.length (by omega) rest (n + 1) (cur - 1) rfl
    · simp [inFlightBounded]

theorem drainAll_gaps (oracle : ℕ → ℕ) (l : List α) (n c : ℕ) :
    launchGapsOk c (drainAll oracle l n) = true := by
  generalize hl : l.length = len
  induction len using Nat.strong_induction_on generalizing l n c with
  | _ len ih =>
    rw [drainAll]
    split
    · next a rest h =>
        simp only [launchGapsOk]
        have hlen := raceSettle_len _ _ _ _ h
        exact ih rest.length (by omega) rest (n + 1) (c + 1) rfl
    · simp [launchGapsOk]

theorem simLoop_launches (limit : ℕ) (oracle : ℕ → ℕ) (items : List α) :
    ∀ (exec : List α) (n : ℕ),
      launchesOf (simLoop limit oracle items exec n) = items := by
  induction items with
  | nil => intro exec n; simp only [simLoop]; exact drainAll_no_launch oracle exec n
  | cons i rest ih =>
      intro exec n
      simp only [simLoop]
      by_cases hle : limit ≤ (exec ++ [i]).length
      · simp only [if_pos hle]
        rcases h : raceSettle (oracle n) (exec ++ [i]) with _ | ⟨a, remaining⟩
        · have := raceSettle_none _ _ h
          simp at this
        · simp only [launchesOf]
          rw [ih remaining (n + 1)]
      · simp only [if_neg hle, launchesOf]
        rw [ih (exec ++ [i]) n]

theorem simLoop_settles (limit : ℕ) (oracle : ℕ → ℕ) (items : List α) :
    ∀ (exec : List α) (n : ℕ),
      (settlesOf (simLoop limit oracle items exec n)).Perm (items ++ exec) := by
  induction items with
  | nil =>
      intro exec n
      simp only [simLoop, List.nil_append]
      exact drainAll_settles oracle exec n
  | cons i rest ih =>
      intro exec n
      simp only [simLoop]
      have hgoal : (rest ++ (exec ++ [i])).Perm (i :: (rest ++ exec)) := by
        rw [← List.append_assoc]
        exact List.perm_append_singleton _ _
      by_cases hle : limit ≤ (exec ++ [i]).length
      · simp only [if_pos hle]
        rcases h : raceSettle (oracle n) (exec ++ [i]) with _ | ⟨a, remaining⟩
        · have := raceSettle_none _ _ h
          simp at this
        · simp only [settlesOf]
          have hperm := raceSettle_perm _ _ _ _ h
          have h2 := (ih remaining (n + 1)).cons a
          have h3 : (a :: (rest ++ remaining)).Perm (rest ++ (a :: remaining)) :=
            List.perm_middle.symm
          have h4 : (rest ++ (a :: remaining)).Perm (rest ++ (exec ++ [i])) :=
            List.Perm.append_left rest hperm.symm
          exact h2.trans (h3.trans (h4.trans hgoal))
      · rw [if_neg hle]
        simp only [settlesOf]
        exact (ih (exec ++ [i]) n).trans hgoal

theorem simLoop_bounded (limit : ℕ) (oracle : ℕ → ℕ) (items : List α) :
    ∀ (exec : List α) (n : ℕ), exec.length < limit →
      inFlightBounded limit exec.length (simLoop limit oracle items exec n) = true := by
  induction items with
  | nil => intro exec n _; simp only [simLoop]; exact drainAll_bounded limit oracle exec n _
  | cons i rest ih =>
      intro exec n hlt
      simp only [simLoop]
      by_cases hle : limit ≤ (exec ++ [i]).length
      · rw [if_pos hle]
        rcases h : raceSettle (oracle n) (exec ++ [i]) with _ | ⟨a, remaining⟩
        · have := raceSettle_none _ _ h
          simp at this
        · simp only [inFlightBounded]
          have hlen := raceSettle_len _ _ _ _ h
          simp only [List.length_append, List.length_cons, List.length_nil] at hlen
          have hrem : remaining.length = exec.length := by omega
          have hrec := ih remaining (n + 1) (by omega)
          rw [hrem] at hrec
          have hc : exec.length + 1 - 1 = exec.length := by omega
          rw [hc, hrec]
          simp only [Bool.and_true, decide_eq_true_eq]
          omega
      · rw [if_neg hle]
        simp only [inFlightBounded]
        have hlen : (exec ++ [i]).length = exec.length + 1 := by simp
        have hrec := ih (exec ++ [i]) n (by omega)
        rw [hlen] at hrec
        rw [hrec]
        simp only [Bool.and_true, decide_eq_true_eq]
        omega

theorem simLoop_gaps (limit : ℕ) (oracle : ℕ → ℕ) (items : List α) :
    ∀ (exec : List α) (n c : ℕ), c ≤ 1 →
      launchGapsOk c (simLoop limit oracle items exec n) = true := by
  induction items with
  | nil => intro exec n c _; simp only [simLoop]; exact drainAll_gaps oracle exec n c
  | cons i rest ih =>
      intro exec n c hc
      simp only [simLoop]
      by_cases hle : limit ≤ (exec ++ [i]).length
      · rw [if_pos hle]
        rcases h : raceSettle (oracle n) (exec ++ [i]) with _ | ⟨a, remaining⟩
        · have := raceSettle_none _ _ h
          simp at this
        · simp only [launchGapsOk]
          rw [ih remaining (n + 1) 1 (by omega)]
          simp [hc]
      · rw [if_neg hle]
        simp only [launchGapsOk]
        rw [ih (exec ++ [i]) n 0 (by omega)]
        simp [hc]

/-- C6: for any positive window width and any settlement schedule, the
trace of `processWithConcurrency` keeps the number of simultaneously
in-flight handlers at or below `limit`, and between consecutive handler
launches at most ONE in-flight task settles — the race resumes the loop
after a single settlement rather than after all of them. -/
theorem processWithConcurrency_window (items : List α) (limit : ℕ)
    (oracle : ℕ → ℕ) (hpos : 1 ≤ limit) :
    inFlightBounded limit 0 (processWithConcurrency items limit oracle) = true ∧
    launchGapsOk 0 (processWithConcurrency items limit oracle) = true := by
  constructor
  · have h := simLoop_bounded limit oracle items [] 0 (by simpa using hpos)
    simpa using h
  · exact simLoop_gaps limit oracle items [] 0 0 (by omega)

/-- C6 witness: three items through a window of width 2 under the
round-robin scheduler. -/
theorem processWithConcurrency_window_witness :
    1 ≤ 2 ∧
    (inFlightBounded 2 0 (processWithConcurrency [10, 20, 30] 2 (fun n => n)) = true ∧
     launchGapsOk 0 (processWithConcurrency [10, 20, 30] 2 (fun n => n)) = true) :=
  ⟨by decide, processWithConcurrency_window [10, 20, 30] 2 (fun n => n) (by decide)⟩

/-- C9: for every item list (and any window width and schedule), the
handler is launched exactly once per item, in list order, and by the time
the call returns every launched handler has settled (the settlements are
a permutation of the launches — nothing is skipped, nothing left
in flight). -/
theorem processWithConcurrency_complete (items : List α) (limit : ℕ)
    (oracle : ℕ → ℕ) :
    launchesOf (processWithConcurrency items limit oracle) = items ∧
    (settlesOf (processWithConcurrency items limit oracle)).Perm items := by
  constructor
  · exact simLoop_launches limit oracle items [] 0
  · have h := simLoop_settles limit oracle items [] 0
    simpa using h

theorem tileEventsOf_append (a b : List StreamEvent) :
    tileEventsOf (a ++ b) = tileEventsOf a ++ tileEventsOf b := by
  induction a with
  | nil => rfl
  | cons e t ih =>
      rcases e with id | pid | p1 | d1 <;> simp [tileEventsOf, ih]

theorem resolveTilePass_no_tile (w : World) (retries : ℕ) (mk gk : Bool) :
    ∀ (bs : List BusinessResult) (cache : Cache),
      tileEventsOf (resolveTilePass w retries mk gk bs cache).1 = [] := by
  intro bs
  induction bs with
  | nil => intro cache; rfl
  | cons b rest ih =>
      intro cache
      simp only [resolveTilePass]
      split
      · simp [tileEventsOf, ih]
      · simp [ih]

/-- The tile loop announces exactly the tiles processed before the abort
was observed: all of the batch when the signal never fires, the first `a`
when it is observed at the top of iteration `a`. -/
theorem runTileLoop_tileEvents (w : World) (retries : ℕ) (mk gk : Bool)
    (tileRecords : String → List BusinessResult) (si tt : ℕ) :
    ∀ (batch : List GeoTile) (ab : Option ℕ) (st : LoopSt),
      tileEventsOf
          (runTileLoop w retries mk gk tileRecords si tt batch ab st).1 =
        ((batch.take (match ab with | some a => a | none => batch.length)).map
          GeoTile.id) := by
  intro batch
  induction batch with
  | nil => intro ab st; rcases ab with _ | a <;> simp [runTileLoop, tileEventsOf]
  | cons tile rest ih =>
      intro ab st
      rcases ab with _ | a
      · simp only [runTileLoop]
        rw [if_neg (by simp)]
        simp only [tileEventsOf]
        rw [tileEventsOf_append, resolveTilePass_no_tile]
        simp only [List.nil_append, tileEventsOf]
        rw [ih none _]
        simp [List.take_succ_cons]
      · rcases a with _ | a
        · simp [runTileLoop, tileEventsOf]
        · simp only [runTileLoop]
          rw [if_neg (by simp)]
          simp only [tileEventsOf]
          rw [tileEventsOf_append, resolveTilePass_no_tile]
          simp only [List.nil_append, tileEventsOf]
          rw [ih (some a) _]
          simp [List.take_succ_cons]

theorem doneHasMore_concat (evs : List StreamEvent)
    (f s t u : ℕ) (hm : Bool) (nt : Option ℕ) :
    doneHasMore (evs ++ [StreamEvent.doneEv f s t u hm nt]) = some hm := by
  simp [doneHasMore, List.getLast?_concat]

theorem doneNextTile_concat (evs : List StreamEvent)
    (f s t u : ℕ) (hm : Bool) (nt : Option ℕ) :
    doneNextTile (evs ++ [StreamEvent.doneEv f s t u hm nt]) = some nt := by
  simp [doneNextTile, List.getLast?_concat]

/-- C1 amended: when the cancellation signal is observed at the top of
batch iteration `a`, no `tile` event is emitted for any batch tile from
position `a` on; but the terminal `done` event ignores the interruption
point entirely — `hasMore` and `nextTileIndex` are computed from the
planned batch end `endIndex` alone, so a cancelled invocation reports
`hasMore = false, nextTileIndex = null` whenever the batch would have
reached the last tile, and otherwise points at `endIndex`, skipping the
unprocessed remainder of the batch. -/
theorem stream_cancellation_batch_cursor (w : World) (retries : ℕ)
    (minoKey googleKey : Bool) (tileRecords : String → List BusinessResult)
    (tiles : List GeoTile) (sti : Option ℤ) (maxT : ℕ) (a : ℕ) :
    tileEventsOf
        (runStream w retries minoKey googleKey tileRecords tiles sti maxT (some a)) =
      ((tilesBatchOf tiles sti maxT).take a).map GeoTile.id ∧
    doneHasMore
        (runStream w retries minoKey googleKey tileRecords tiles sti maxT (some a)) =
      some (decide (endIndexOf tiles.length sti maxT < tiles.length)) ∧
    doneNextTile
        (runStream w retries minoKey googleKey tileRecords tiles sti maxT (some a)) =
      some (if endIndexOf tiles.length sti maxT < tiles.length then
        some (endIndexOf tiles.length sti maxT) else none) := by
  unfold runStream
  refine ⟨?_, ?_, ?_⟩
  · rw [tileEventsOf_append, runTileLoop_tileEvents]
    simp [tileEventsOf]
  · rw [doneHasMore_concat]
  · rw [doneNextTile_concat]

/-- C1 counterexample: cancellation observed after tile 0 of a 5-tile
query processed in one batch.  Tiles 1-4 are indeed not announced, but
the stream ends with `hasMore = false` and `nextTileIndex = null` — not
`hasMore = true` pointing at the interrupted tile — so a resumed
invocation would believe the query finished. -/
theorem stream_cancellation_cursor_lost : ¬ claimC1 := by
  intro h
  have hinst := h wEmpty 0 true false (fun _ => []) testTiles none 40 1
    (by decide) (by decide) (by decide)
  have hfalse : doneHasMore
      (runStream wEmpty 0 true false (fun _ => []) testTiles none 40 (some 1)) =
      some false := by decide
  rw [hinst.2.1] at hfalse
  exact absurd hfalse (by decide)

theorem intRangeIncl_mem (a b z : ℤ) :
    z ∈ intRangeIncl a b ↔ a ≤ z ∧ z ≤ b := by
  unfold intRangeIncl
  rw [List.mem_map]
  constructor
  · rintro ⟨i, hi, rfl⟩
    rw [List.mem_range] at hi
    omega
  · intro ⟨h1, h2⟩
    refine ⟨(z - a).toNat, ?_, ?_⟩
    · rw [List.mem_range]; omega
    · omega

theorem tileOffsets_mem (stepKm radiusKm tileSizeKm : ℚ) (steps x y : ℤ) :
    (x, y) ∈ tileOffsets stepKm radiusKm tileSizeKm steps ↔
      (-steps ≤ y ∧ y ≤ steps) ∧ (-steps ≤ x ∧ x ≤ steps) ∧
        tileKeep stepKm radiusKm tileSizeKm x y = true := by
  simp only [tileOffsets, List.mem_flatMap, List.mem_filterMap]
  constructor
  · rintro ⟨y0, hy0, x0, hx0, hif⟩
    by_cases hk : tileKeep stepKm radiusKm tileSizeKm x0 y0 = true
    · rw [if_pos hk] at hif
      obtain ⟨rfl, rfl⟩ : x0 = x ∧ y0 = y := by
        simpa [Prod.ext_iff] using hif
      exact ⟨(intRangeIncl_mem _ _ _).mp hy0, (intRangeIncl_mem _ _ _).mp hx0, hk⟩
    · rw [if_neg hk] at hif
      cases hif
  · rintro ⟨⟨hy1, hy2⟩, ⟨hx1, hx2⟩, hk⟩
    refine ⟨y, (intRangeIncl_mem _ _ _).mpr ⟨hy1, hy2⟩,
      x, (intRangeIncl_mem _ _ _).mpr ⟨hx1, hx2⟩, ?_⟩
    rw [if_pos hk]

theorem buildTiles_length (cosFn : ℚ → ℚ) (center : GeoPoint)
    (radiusKm tileSizeKm overlapKm : ℚ) :
    (buildTiles cosFn center radiusKm tileSizeKm overlapKm).length =
      (tileOffsets (max (tileSizeKm - overlapKm) 1) radiusKm tileSizeKm
        ⌈radiusKm / max (tileSizeKm - overlapKm) 1⌉).length := by
  unfold buildTiles
  rw [List.length_map, List.enum_length]

theorem buildTiles_getElem (cosFn : ℚ → ℚ) (center : GeoPoint)
    (radiusKm tileSizeKm overlapKm : ℚ) (i : ℕ)
    (h : i < (buildTiles cosFn center radiusKm tileSizeKm overlapKm).length) :
    (buildTiles cosFn center radiusKm tileSizeKm overlapKm)[i] =
      mkTile cosFn center (max (tileSizeKm - overlapKm) 1) tileSizeKm i
        ((tileOffsets (max (tileSizeKm - overlapKm) 1) radiusKm tileSizeKm
          ⌈radiusKm / max (tileSizeKm - overlapKm) 1⌉).get ⟨i, by
            rw [buildTiles_length] at h; exact h⟩) := by
  have h2 : i < (tileOffsets (max (tileSizeKm - overlapKm) 1) radiusKm tileSizeKm
      ⌈radiusKm / max (tileSizeKm - overlapKm) 1⌉).length := by
    rw [buildTiles_length] at h; exact h
  unfold buildTiles
  rw [List.getElem_map, List.getElem_enum]
  simp [List.get_eq_getElem]

theorem buildTiles_mem_of_offset (cosFn : ℚ → ℚ) (center : GeoPoint)
    (radiusKm tileSizeKm overlapKm : ℚ) (x y : ℤ)
    (hmem : (x, y) ∈ tileOffsets (max (tileSizeKm - overlapKm) 1) radiusKm
      tileSizeKm ⌈radiusKm / max (tileSizeKm - overlapKm) 1⌉) :
    ∃ t ∈ buildTiles cosFn center radiusKm tileSizeKm overlapKm,
      t.bounds =
        (mkTile cosFn center (max (tileSizeKm - overlapKm) 1) tileSizeKm 0
          (x, y)).bounds := by
  obtain ⟨i, hi, hget⟩ := List.mem_iff_getElem.mp hmem
  have hlen : i < (buildTiles cosFn center radiusKm tileSizeKm overlapKm).length := by
    rw [buildTiles_length]; exact hi
  refine ⟨(buildTiles cosFn center radiusKm tileSizeKm overlapKm)[i],
    List.getElem_mem hlen, ?_⟩
  rw [buildTiles_getElem]
  have hxy : (tileOffsets (max (tileSizeKm - overlapKm) 1) radiusKm tileSizeKm
      ⌈radiusKm / max (tileSizeKm - overlapKm) 1⌉).get ⟨i, hi⟩ = (x, y) := hget
  rw [hxy]
  rfl

/-- C10: for every center, any `radiusKm >= 0` and `tileSizeKm > 0`, the
tiler emits a non-empty list containing a tile whose bounding box is
centred on the query center (the `(0, 0)` grid offset always passes the
distance filter), and the i-th emitted tile carries id `tile-i` — ids
are consecutive in emission order with no gaps. -/
theorem buildTiles_center_and_ids (cosFn : ℚ → ℚ) (center : GeoPoint)
    (radiusKm tileSizeKm overlapKm : ℚ) (hr : 0 ≤ radiusKm)
    (hts : 0 < tileSizeKm) :
    buildTiles cosFn center radiusKm tileSizeKm overlapKm ≠ [] ∧
    (∃ t ∈ buildTiles cosFn center radiusKm tileSizeKm overlapKm,
       t.bounds.north + t.bounds.south = 2 * center.lat ∧
       t.bounds.east + t.bounds.west = 2 * center.lon) ∧
    (∀ (i : ℕ) (h : i < (buildTiles cosFn center radiusKm tileSizeKm overlapKm).length),
       (buildTiles cosFn center radiusKm tileSizeKm overlapKm)[i].id =
         "tile-" ++ toString i) := by
  have hstep : (0 : ℚ) < max (tileSizeKm - overlapKm) 1 :=
    lt_of_lt_of_le one_pos (le_max_right _ _)
  have hsteps : (0 : ℤ) ≤ ⌈radiusKm / max (tileSizeKm - overlapKm) 1⌉ :=
    Int.ceil_nonneg (div_nonneg hr hstep.le)
  have hkeep : tileKeep (max (tileSizeKm - overlapKm) 1) radiusKm tileSizeKm 0 0 = true := by
    simp only [tileKeep, decide_eq_true_eq]
    constructor
    · linarith
    · have h1 : ((0 : ℤ) : ℚ) ^ 2 + ((0 : ℤ) : ℚ) ^ 2 = 0 := by norm_num
      rw [h1, zero_mul]
      positivity
  have hmem00 : ((0 : ℤ), (0 : ℤ)) ∈ tileOffsets (max (tileSizeKm - overlapKm) 1)
      radiusKm tileSizeKm ⌈radiusKm / max (tileSizeKm - overlapKm) 1⌉ :=
    (tileOffsets_mem _ _ _ _ _ _).mpr
      ⟨⟨by omega, by omega⟩, ⟨by omega, by omega⟩, hkeep⟩
  obtain ⟨t, hmem, hbounds⟩ :=
    buildTiles_mem_of_offset cosFn center radiusKm tileSizeKm overlapKm 0 0 hmem00
  refine ⟨List.ne_nil_of_mem hmem, ⟨t, hmem, ?_, ?_⟩, ?_⟩
  · rw [hbounds]
    simp only [mkTile]
    push_cast
    ring
  · rw [hbounds]
    simp only [mkTile]
    push_cast
    ring
  · intro i h
    rw [buildTiles_getElem]
    rfl

/-- C10 witness: the concrete 1 km radius, half-km tile query at the
origin. -/
theorem buildTiles_center_and_ids_witness :
    (0 : ℚ) ≤ 1 ∧ (0 : ℚ) < 1 / 2 ∧
    (buildTiles (fun _ => 1) ⟨0, 0⟩ 1 (1 / 2) 0 ≠ [] ∧
     (∃ t ∈ buildTiles (fun _ => 1) ⟨0, 0⟩ 1 (1 / 2) 0,
        t.bounds.north + t.bounds.south = 2 * (0 : ℚ) ∧
        t.bounds.east + t.bounds.west = 2 * (0 : ℚ)) ∧
     (∀ (i : ℕ) (h : i < (buildTiles (fun _ => 1) ⟨0, 0⟩ 1 (1 / 2) 0).length),
        (buildTiles (fun _ => 1) ⟨0, 0⟩ 1 (1 / 2) 0)[i].id =
          "tile-" ++ toString i)) :=
  ⟨by norm_num, by norm_num,
   buildTiles_center_and_ids (fun _ => 1) ⟨0, 0⟩ 1 (1 / 2) 0
     (by norm_num) (by norm_num)⟩

/-- The chosen grid point is within one step of `p` and no farther from
the origin than `p`. -/
theorem chooseIdx_spec (p s : ℚ) (hs : 0 < s) :
    |p - (chooseIdx p s : ℚ) * s| < s ∧ |(chooseIdx p s : ℚ) * s| ≤ |p| := by
  unfold chooseIdx
  by_cases hp : 0 ≤ p
  · rw [if_pos hp]
    have h0 : (0 : ℤ) ≤ ⌊p / s⌋ := Int.floor_nonneg.mpr (div_nonneg hp hs.le)
    have h1 : (⌊p / s⌋ : ℚ) * s ≤ p := by
      have := Int.floor_le (p / s)
      calc (⌊p / s⌋ : ℚ) * s ≤ (p / s) * s := by
            exact mul_le_mul_of_nonneg_right this hs.le
        _ = p := by field_simp
    have h2 : p < ((⌊p / s⌋ : ℚ) + 1) * s := by
      have := Int.lt_floor_add_one (p / s)
      calc p = (p / s) * s := by field_simp
        _ < ((⌊p / s⌋ : ℚ) + 1) * s := by
            exact mul_lt_mul_of_pos_right this hs
    have h3 : (0 : ℚ) ≤ (⌊p / s⌋ : ℚ) * s := by
      have : (0 : ℚ) ≤ (⌊p / s⌋ : ℚ) := by exact_mod_cast h0
      positivity
    constructor
    · rw [abs_lt]
      constructor <;> nlinarith
    · rw [abs_of_nonneg h3, abs_of_nonneg hp]
      exact h1
  · rw [if_neg hp]
    push_neg at hp
    have hq : 0 ≤ -p := by linarith
    have h0 : (0 : ℤ) ≤ ⌊(-p) / s⌋ := Int.floor_nonneg.mpr (div_nonneg hq hs.le)
    have h1 : (⌊(-p) / s⌋ : ℚ) * s ≤ -p := by
      have := Int.floor_le ((-p) / s)
      calc (⌊(-p) / s⌋ : ℚ) * s ≤ ((-p) / s) * s := by
            exact mul_le_mul_of_nonneg_right this hs.le
        _ = -p := by field_simp
    have h2 : -p < ((⌊(-p) / s⌋ : ℚ) + 1) * s := by
      have := Int.lt_floor_add_one ((-p) / s)
      calc -p = ((-p) / s) * s := by field_simp
        _ < ((⌊(-p) / s⌋ : ℚ) + 1) * s := by
            exact mul_lt_mul_of_pos_right this hs
    have h3 : (0 : ℚ) ≤ (⌊(-p) / s⌋ : ℚ) * s := by
      have : (0 : ℚ) ≤ (⌊(-p) / s⌋ : ℚ) := by exact_mod_cast h0
      positivity
    push_cast
    constructor
    · rw [abs_lt]
      constructor <;> nlinarith
    · rw [abs_of_nonpos (by nlinarith : (-(⌊(-p) / s⌋ : ℚ)) * s ≤ 0),
        abs_of_nonpos hp.le]
      nlinarith

theorem buildTiles_mem_elim (cosFn : ℚ → ℚ) (center : GeoPoint)
    (radiusKm tileSizeKm overlapKm : ℚ) (t : GeoTile)
    (h : t ∈ buildTiles cosFn center radiusKm tileSizeKm overlapKm) :
    ∃ x y, (x, y) ∈ tileOffsets (max (tileSizeKm - overlapKm) 1) radiusKm
        tileSizeKm ⌈radiusKm / max (tileSizeKm - overlapKm) 1⌉ ∧
      t.bounds = (mkTile cosFn center (max (tileSizeKm - overlapKm) 1)
        tileSizeKm 0
        (x, y)).bounds := by
  unfold buildTiles at h
  obtain ⟨p, hp, hmk⟩ := List.mem_map.mp h
  obtain ⟨j, hj, hpj⟩ := List.mem_iff_getElem.mp hp
  rw [List.enum_length] at hj
  rw [List.getElem_enum] at hpj
  refine ⟨(tileOffsets (max (tileSizeKm - overlapKm) 1) radiusKm tileSizeKm
      ⌈radiusKm / max (tileSizeKm - overlapKm) 1⌉)[j].1,
    (tileOffsets (max (tileSizeKm - overlapKm) 1) radiusKm tileSizeKm
      ⌈radiusKm / max (tileSizeKm - overlapKm) 1⌉)[j].2, ?_, ?_⟩
  · exact List.getElem_mem hj
  · rw [← hmk, ← hpj]
    rfl

/-- C4 counterexample: center at the origin, radius 1 km, tile size
0.5 km, overlap 0.  The step becomes `max (0.5 - 0) 1 = 1` km, larger
than the tile size, so the 0.5 km-wide tiles on the 1 km grid leave
gaps: the in-radius point 0.5 km east of the center is in no tile. -/
theorem tile_coverage_gap : ¬ claimC4 := by
  intro h
  obtain ⟨t, htmem, hin⟩ := h (fun _ => 1) ⟨rfl, fun _ => ⟨one_pos, le_refl 1⟩⟩
    ⟨0, 0⟩ 1 (1 / 2) 0 (1 / 2) 0 (by norm_num) (by norm_num)
  obtain ⟨x, y, hxy, hb⟩ := buildTiles_mem_elim _ _ _ _ _ _ htmem
  rw [tileOffsets_mem] at hxy
  obtain ⟨⟨hy1, hy2⟩, ⟨hx1, hx2⟩, hkeep⟩ := hxy
  have hceil : (⌈(1 : ℚ) / max (1 / 2 - 0) 1⌉ : ℤ) = 1 := by norm_num
  rw [hceil] at hy1 hy2 hx1 hx2
  have hkeep2 : ((x : ℚ) ^ 2 + (y : ℚ) ^ 2) * (max (1 / 2 - 0 : ℚ) 1) ^ 2 ≤
      ((1 : ℚ) + (1 / 2) / 2) ^ 2 := by
    have := (decide_eq_true_eq.mp hkeep).2
    exact this
  have hmax1 : (max (1 / 2 - 0 : ℚ) 1) = 1 := by norm_num
  rw [hmax1] at hkeep2
  have hsum : x ^ 2 + y ^ 2 ≤ 1 := by
    by_contra hgt
    push_neg at hgt
    have h2 : (2 : ℚ) ≤ ((x ^ 2 + y ^ 2 : ℤ) : ℚ) := by exact_mod_cast hgt
    push_cast at h2
    nlinarith
  simp only [inTileBounds, decide_eq_true_eq, hb] at hin
  interval_cases x <;> interval_cases y <;>
    norm_num [mkTile, kmToLatDegrees, kmToLngDegrees, kmPerDegree] at hsum hin

theorem sq_le_of_abs_le_abs (a b : ℚ) (h : |a| ≤ |b|) : a ^ 2 ≤ b ^ 2 := by
  rw [← sq_abs a, ← sq_abs b]
  exact pow_le_pow_left (abs_nonneg a) h 2

/-- C4 amended: tile coverage holds under the conditions the
counterexample forces — the grid step must not exceed the tile size
(`1 <= tileSizeKm - overlapKm`, so the `max` floor is inactive) and must
leave at least half a tile of overlap (`tileSizeKm - overlapKm <=
tileSizeKm / 2`), with the center on the equator, where the longitude
half-width of every row (computed at the row latitude, with the
degree-cosine at most 1) can only widen relative to the center-latitude
conversion.  Then every point within `radiusKm >= tileSizeKm` of the
center lies in some generated tile. -/
theorem tile_coverage_equator (cosFn : ℚ → ℚ) (hcos1 : cosFn 0 = 1)
    (hcos : ∀ q, 0 < cosFn q ∧ cosFn q ≤ 1)
    (lon0 radiusKm tileSizeKm overlapKm dxKm dyKm : ℚ)
    (hstep1 : 1 ≤ tileSizeKm - overlapKm)
    (hstep2 : tileSizeKm - overlapKm ≤ tileSizeKm / 2)
    (hrts : tileSizeKm ≤ radiusKm)
    (hdist : dxKm ^ 2 + dyKm ^ 2 ≤ radiusKm ^ 2) :
    ∃ t ∈ buildTiles cosFn ⟨0, lon0⟩ radiusKm tileSizeKm overlapKm,
      inTileBounds t ((0 : ℚ) + kmToLatDegrees dyKm)
        (lon0 + kmToLngDegrees cosFn dxKm 0) = true := by
  have hs_pos : (0 : ℚ) < tileSizeKm - overlapKm := lt_of_lt_of_le one_pos hstep1
  have hts_pos : (0 : ℚ) < tileSizeKm := by linarith
  have hr_pos : (0 : ℚ) ≤ radiusKm := by linarith
  have hmax : max (tileSizeKm - overlapKm) 1 = tileSizeKm - overlapKm :=
    max_eq_left hstep1
  obtain ⟨hdx1, hdx2⟩ := chooseIdx_spec dxKm (tileSizeKm - overlapKm) hs_pos
  obtain ⟨hdy1, hdy2⟩ := chooseIdx_spec dyKm (tileSizeKm - overlapKm) hs_pos
  have habs_dx : |dxKm| ≤ radiusKm := by
    rw [abs_le]
    constructor <;> nlinarith [sq_nonneg dyKm]
  have habs_dy : |dyKm| ≤ radiusKm := by
    rw [abs_le]
    constructor <;> nlinarith [sq_nonneg dxKm]
  have hrange : ∀ (p : ℚ), |p| ≤ radiusKm →
      |chooseIdx p (tileSizeKm - overlapKm)| ≤
        ⌈radiusKm / (tileSizeKm - overlapKm)⌉ := by
    intro p hp
    obtain ⟨_, hp2⟩ := chooseIdx_spec p (tileSizeKm - overlapKm) hs_pos
    have h1 : |(chooseIdx p (tileSizeKm - overlapKm) : ℚ)| *
        (tileSizeKm - overlapKm) ≤ radiusKm := by
      have := le_trans hp2 hp
      rwa [abs_mul, abs_of_pos hs_pos] at this
    have h2 : |(chooseIdx p (tileSizeKm - overlapKm) : ℚ)| ≤
        radiusKm / (tileSizeKm - overlapKm) := by
      rw [le_div_iff hs_pos]
      exact h1
    have h3 : |(chooseIdx p (tileSizeKm - overlapKm) : ℚ)| ≤
        (⌈radiusKm / (tileSizeKm - overlapKm)⌉ : ℚ) :=
      le_trans h2 (Int.le_ceil _)
    rw [← Int.cast_abs] at h3
    exact_mod_cast h3
  have hxI := abs_le.mp (hrange dxKm habs_dx)
  have hyI := abs_le.mp (hrange dyKm habs_dy)
  have hkeep : tileKeep (tileSizeKm - overlapKm) radiusKm tileSizeKm
      (chooseIdx dxKm (tileSizeKm - overlapKm))
      (chooseIdx dyKm (tileSizeKm - overlapKm)) = true := by
    simp only [tileKeep, decide_eq_true_eq]
    refine ⟨by linarith, ?_⟩
    have e1 : (((chooseIdx dxKm (tileSizeKm - overlapKm)) : ℚ) ^ 2 +
        ((chooseIdx dyKm (tileSizeKm - overlapKm)) : ℚ) ^ 2) *
        (tileSizeKm - overlapKm) ^ 2 =
        (((chooseIdx dxKm (tileSizeKm - overlapKm)) : ℚ) *
          (tileSizeKm - overlapKm)) ^ 2 +
        (((chooseIdx dyKm (tileSizeKm - overlapKm)) : ℚ) *
          (tileSizeKm - overlapKm)) ^ 2 := by ring
    rw [e1]
    have b1 := sq_le_of_abs_le_abs _ _ hdx2
    have b2 := sq_le_of_abs_le_abs _ _ hdy2
    have hr2 : radiusKm ^ 2 ≤ (radiusKm + tileSizeKm / 2) ^ 2 := by nlinarith
    linarith
  have hmem : (chooseIdx dxKm (tileSizeKm - overlapKm),
      chooseIdx dyKm (tileSizeKm - overlapKm)) ∈
      tileOffsets (max (tileSizeKm - overlapKm) 1) radiusKm tileSizeKm
        ⌈radiusKm / max (tileSizeKm - overlapKm) 1⌉ := by
    rw [hmax]
    exact (tileOffsets_mem _ _ _ _ _ _).mpr
      ⟨⟨hyI.1, hyI.2⟩, ⟨hxI.1, hxI.2⟩, hkeep⟩
  obtain ⟨t, htmem, hbounds⟩ := buildTiles_mem_of_offset cosFn ⟨0, lon0⟩
    radiusKm tileSizeKm overlapKm _ _ hmem
  rw [hmax] at hbounds
  refine ⟨t, htmem, ?_⟩
  simp only [inTileBounds, decide_eq_true_eq, hbounds, mkTile,
    kmToLatDegrees, kmToLngDegrees, zero_add]
  rw [hcos1, mul_one]
  have hK : (0 : ℚ) < kmPerDegree := by norm_num [kmPerDegree]
  obtain ⟨hc_pos, hc_le⟩ := hcos
    ((chooseIdx dyKm (tileSizeKm - overlapKm) : ℚ) *
      ((tileSizeKm - overlapKm) / kmPerDegree))
  have hdivK : ∀ a b : ℚ, a ≤ b → a / kmPerDegree ≤ b / kmPerDegree :=
    fun a b hab => div_le_div_of_nonneg_right hab hK.le
  have hhalf : tileSizeKm / 2 / kmPerDegree ≤
      tileSizeKm / 2 / (kmPerDegree *
        cosFn ((chooseIdx dyKm (tileSizeKm - overlapKm) : ℚ) *
          ((tileSizeKm - overlapKm) / kmPerDegree))) := by
    apply div_le_div_of_nonneg_left (by linarith) (by positivity)
    nlinarith
  have hy_lo : (chooseIdx dyKm (tileSizeKm - overlapKm) : ℚ) *
      (tileSizeKm - overlapKm) - tileSizeKm / 2 ≤ dyKm := by
    have := abs_lt.mp hdy1
    linarith
  have hy_hi : dyKm ≤ (chooseIdx dyKm (tileSizeKm - overlapKm) : ℚ) *
      (tileSizeKm - overlapKm) + tileSizeKm / 2 := by
    have := abs_lt.mp hdy1
    linarith
  have hx_lo : (chooseIdx dxKm (tileSizeKm - overlapKm) : ℚ) *
      (tileSizeKm - overlapKm) - tileSizeKm / 2 ≤ dxKm := by
    have := abs_lt.mp hdx1
    linarith
  have hx_hi : dxKm ≤ (chooseIdx dxKm (tileSizeKm - overlapKm) : ℚ) *
      (tileSizeKm - overlapKm) + tileSizeKm / 2 := by
    have := abs_lt.mp hdx1
    linarith
  refine ⟨?_, ?_, ?_, ?_⟩
  · have h1 := hdivK _ _ hy_lo
    rw [sub_div, mul_div_assoc] at h1
    linarith
  · have h1 := hdivK _ _ hy_hi
    rw [add_div, mul_div_assoc] at h1
    linarith
  · have h1 := hdivK _ _ hx_lo
    rw [sub_div, mul_div_assoc] at h1
    linarith
  · have h1 := hdivK _ _ hx_hi
    rw [add_div, mul_div_assoc] at h1
    linarith

/-- C4 amended, witness: radius 10 km, tile size 6 km, overlap 4 km
(step 2 km), point 3 km east and 4 km north of the equatorial center. -/
theorem tile_coverage_equator_witness :
    ∃ t ∈ buildTiles (fun _ => 1) ⟨0, 0⟩ 10 6 4,
      inTileBounds t ((0 : ℚ) + kmToLatDegrees 4)
        ((0 : ℚ) + kmToLngDegrees (fun _ => 1) 3 0) = true :=
  tile_coverage_equator (fun _ => 1) rfl (fun _ => ⟨one_pos, le_refl 1⟩)
    0 10 6 4 3 4 (by norm_num) (by norm_num) (by norm_num) (by norm_num)
